import Mathlib

/-!
Shallow embedding of the hm-agentic-retail-assistant pipeline
(`src/evaluation/metrics.py`, `src/evaluation/split.py`,
`src/baselines/popularity.py`, `src/baselines/cooccurrence.py`,
`src/features/build_interactions.py`).

Tabular data (polars frames) is modelled as lists of rows in frame order.
Dates are modelled as `Nat` day numbers, identifiers as `String`, and the
float columns (`implicit_score`, metric values) as `ℚ`: all float arithmetic
performed by the repository on these columns is plain division, addition and
comparison of small exact values, which ℚ reproduces.

Polars operations whose row order the engine leaves unspecified
(`group_by` without `maintain_order`, `unique`, join output order, order of
equal keys under `sort`) are modelled by one concrete deterministic
realization: groups and unique keys appear in first-occurrence order and
sorts are stable (`sortIns` below).  Every claim settled below either does
not depend on this choice or is explicitly about the absence of an ordering
guarantee in the source.
-/

namespace HM

/-- Keeps the first occurrence of each element, dropping later duplicates and
anything already in `seen`.  Models the first-occurrence realization of
polars `unique()` / `group_by` key order. -/
def dedupFirst [DecidableEq α] (seen : List α) : List α → List α
  | [] => []
  | a :: l => if a ∈ seen then dedupFirst seen l else a :: dedupFirst (a :: seen) l

/-- Inserts `a` into `l` before the first element `b` with `le a b`. -/
def insertLe (le : α → α → Bool) (a : α) : List α → List α
  | [] => [a]
  | b :: l => if le a b then a :: b :: l else b :: insertLe le a l

/-- Stable insertion sort: elements that compare equal keep their original
relative order.  Used as the concrete realization of the engine's sorts,
whose order among equal keys polars leaves unspecified. -/
def sortIns (le : α → α → Bool) : List α → List α
  | [] => []
  | a :: l => insertLe le a (sortIns le l)

/-- Interaction row: one row of `interactions.parquet` / its train and test
splits, as produced by `src/features/build_interactions.py` with columns
customer_id, article_id, freq, last_seen, implicit_score. -/
structure Interaction where
  customer_id : String
  article_id : String
  freq : Nat
  last_seen : Nat
  implicit_score : ℚ
deriving DecidableEq

/-! ### Evaluator (`src/evaluation/metrics.py`) -/

/-- MetricResult dataclass of `src/evaluation/metrics.py`. -/
structure MetricResult where
  model : String
  recall_at_k : ℚ
  map_at_k : ℚ
  users : Nat
deriving DecidableEq

/-- Embeds `recall_at_k` of `src/evaluation/metrics.py`: returns 0.0 for empty
truth, otherwise the number of entries of `recs[:k]` lying in `truth`
(`sum(1 for a in pred if a in truth)`) divided by `len(truth)`. -/
def recall_at_k (recs : List String) (truth : Finset String) (k : Nat) : ℚ :=
  if truth = ∅ then 0
  else ((recs.take k).countP (fun a => a ∈ truth) : ℚ) / (truth.card : ℚ)

/-- Loop of `ap_at_k` in `src/evaluation/metrics.py`: walks the prediction
list carrying the 1-based position `i`, the running hit count and the running
sum, adding `(hits + 1) / i` at each position whose item is in `truth`. -/
def apLoop (truth : Finset String) : List String → Nat → Nat → ℚ → ℚ
  | [], _, _, s => s
  | a :: rest, i, hits, s =>
    if a ∈ truth then apLoop truth rest (i + 1) (hits + 1) (s + ((hits : ℚ) + 1) / (i : ℚ))
    else apLoop truth rest (i + 1) hits s

/-- Embeds `ap_at_k` of `src/evaluation/metrics.py`: 0.0 for empty truth,
otherwise the loop sum over `recs[:k]` divided by `min(len(truth), k)`, with
the source's `if denom > 0 else 0.0` guard. -/
def ap_at_k (recs : List String) (truth : Finset String) (k : Nat) : ℚ :=
  if truth = ∅ then 0
  else
    if 0 < min truth.card k then apLoop truth (recs.take k) 1 0 0 / ((min truth.card k : Nat) : ℚ)
    else 0

/-- Test snapshot rows seen by the evaluator: (customer_id, article_id). -/
abbrev TestRow := String × String

/-- Recommendation rows of a `recs_<model>.parquet` file:
(customer_id, recs list). -/
abbrev RecRow := String × List String

/-- Ground truth for one user: the set of `article_id` values of that user's
test rows (`test.group_by(customer_id).agg(article_id.unique())`). -/
def truthFor (test : List TestRow) (u : String) : Finset String :=
  ((test.filter (fun t => t.1 = u)).map Prod.snd).toFinset

/-- User universe of `evaluate_recs`: unique customer_ids of the recs file,
capped by `head(max_users)` when a cap is given. -/
def evalUsers (recs : List RecRow) (maxUsers : Option Nat) : List String :=
  match maxUsers with
  | some m => (dedupFirst [] (recs.map Prod.fst)).take m
  | none => dedupFirst [] (recs.map Prod.fst)

/-- Rows of `eval_df` in `evaluate_recs`: the recs rows inner-joined with the
per-user truth frame.  The truth frame is itself the inner join of test with
the capped user universe, so a recs row survives exactly when its user is in
the capped universe and has at least one test row; the joined row carries
that user's truth set. -/
def evalRows (recs : List RecRow) (test : List TestRow) (maxUsers : Option Nat) :
    List (String × List String × Finset String) :=
  (recs.filter (fun r => r.1 ∈ evalUsers recs maxUsers ∧ truthFor test r.1 ≠ ∅)).map
    (fun r => (r.1, r.2, truthFor test r.1))

/-- Embeds `evaluate_recs` of `src/evaluation/metrics.py`: per evaluated row
compute recall@k and AP@k, return their arithmetic means (0.0 when no row was
evaluated) and the number of evaluated rows. -/
def evaluate_recs (model : String) (recs : List RecRow) (test : List TestRow)
    (k : Nat) (maxUsers : Option Nat) : MetricResult :=
  let rows := evalRows recs test maxUsers
  let recalls := rows.map (fun r => recall_at_k r.2.1 r.2.2 k)
  let aps := rows.map (fun r => ap_at_k r.2.1 r.2.2 k)
  { model := model
    recall_at_k := if recalls.length = 0 then 0 else recalls.sum / (recalls.length : ℚ)
    map_at_k := if aps.length = 0 then 0 else aps.sum / (aps.length : ℚ)
    users := recalls.length }

/-! ### Splitter (`src/evaluation/split.py`) -/

/-- Result of `make_time_split`, holding the two written frames in place of
the two written parquet paths. -/
structure SplitResult where
  train : List Interaction
  test : List Interaction
deriving DecidableEq

/-- Embeds `make_time_split` of `src/evaluation/split.py`: train keeps the
rows with `last_seen < cutoff`, test keeps the rows with
`last_seen >= cutoff`. -/
def make_time_split (rows : List Interaction) (cutoff : Nat) : SplitResult :=
  { train := rows.filter (fun r => r.last_seen < cutoff)
    test := rows.filter (fun r => cutoff ≤ r.last_seen) }

/-! ### Shared helpers of the two recommenders -/

/-- User universe of a recommender run: unique customer_ids of train
(first-occurrence realization of `unique()`), capped by `limit(max_users)`
when a cap is given. -/
def capUsers (train : List Interaction) : Option Nat → List String
  | some m => (dedupFirst [] (train.map Interaction.customer_id)).take m
  | none => dedupFirst [] (train.map Interaction.customer_id)

/-- Seen set of a user: the `article_id` values of that user's train rows
(`train.group_by(customer_id).agg(article_id.unique())`, read as a set). -/
def seenOf (train : List Interaction) (u : String) : Finset String :=
  ((train.filter (fun r => r.customer_id = u)).map Interaction.article_id).toFinset

/-- Comparator of the seed-selection sort: `implicit_score` descending only.
The source sorts the whole frame by `["customer_id", "implicit_score"]`
(ascending, descending) and then takes `group_by(customer_id).head(n)`; for a
fixed user the surviving rows are that user's rows stably sorted by
`implicit_score` descending, which is what this comparator produces. -/
def scoreLe (a b : Interaction) : Bool := decide (b.implicit_score ≤ a.implicit_score)

/-- Seed rows of one user in `build_item_neighbors` / `build_cooccurrence_recs`:
the user's train rows sorted by `implicit_score` descending (stable; the
source specifies no tie-break), first `s` of them. -/
def seedsOf (train : List Interaction) (u : String) (s : Nat) : List Interaction :=
  (sortIns scoreLe (train.filter (fun r => r.customer_id = u))).take s

/-! ### PopularityRecommender (`src/baselines/popularity.py`) -/

/-- Per-item train interaction counts, keyed in first-occurrence order
(realization of `train.group_by(article_id).agg(len)`). -/
def itemCounts (train : List Interaction) : List (String × Nat) :=
  (dedupFirst [] (train.map Interaction.article_id)).map
    (fun a => (a, (train.filter (fun r => r.article_id = a)).length))

/-- Comparator of the popularity sort: count descending only
(`sort("cnt", descending=True)`, no secondary key in the source). -/
def popLe (a b : String × Nat) : Bool := decide (b.2 ≤ a.2)

/-- Item counts sorted by count descending (stable realization of the
source's tie order, which polars leaves unspecified). -/
def popSorted (train : List Interaction) : List (String × Nat) :=
  sortIns popLe (itemCounts train)

/-- Pool of `build_popularity_recs`: `limit(5000)` of the sorted items. -/
def topItems (train : List Interaction) : List String :=
  ((popSorted train).map Prod.fst).take 5000

/-- Loop body of `recs_for_seen` in `src/baselines/popularity.py`, with the
accumulator kept reversed: append each pool item not in `seen`, and stop as
soon as the accumulated length equals `k` (the source checks
`len(out) == k` after the conditional append, every iteration). -/
def recsLoop (seen : Finset String) (k : Nat) : List String → List String → List String
  | [], out => out.reverse
  | a :: rest, out =>
    let out2 := if a ∈ seen then out else a :: out
    if out2.length = k then out2.reverse else recsLoop seen k rest out2

/-- Embeds `recs_for_seen` of `src/baselines/popularity.py`. -/
def recs_for_seen (top : List String) (seen : Finset String) (k : Nat) : List String :=
  recsLoop seen k top []

/-- Embeds `build_popularity_recs` of `src/baselines/popularity.py`: one
output row per capped train user, carrying `recs_for_seen` of the global
pool against that user's seen set. -/
def build_popularity_recs (train : List Interaction) (k : Nat)
    (maxUsers : Option Nat) : List RecRow :=
  (capUsers train maxUsers).map (fun u => (u, recs_for_seen (topItems train) (seenOf train u) k))

/-! ### CooccurrenceModel (`src/baselines/cooccurrence.py`) -/

/-- NeighborEdge row of `item_neighbors.parquet`: item, neighbor, cnt. -/
structure NeighborEdge where
  item : String
  neighbor : String
  cnt : Nat
deriving DecidableEq

/-- Ordered seed pairs of `build_item_neighbors`: the self-join of the seeds
frame on customer_id filtered by `item != neighbor`.  For each user (in
first-occurrence train order, one realization of the engine's unspecified
group order) every seed article is paired with every other seed article of
the same user, duplicates of the join reproduced exactly. -/
def seedPairs (train : List Interaction) (s : Nat) : List (String × String) :=
  (dedupFirst [] (train.map Interaction.customer_id)).flatMap (fun u =>
    let sd := (seedsOf train u s).map Interaction.article_id
    sd.flatMap (fun a => (sd.filter (fun b => b ≠ a)).map (fun b => (a, b))))

/-- Cooccurrence counts of `build_item_neighbors`: one row per distinct
(item, neighbor) pair (first-occurrence key order), counting its occurrences
in the pair list. -/
def coocCounts (train : List Interaction) (s : Nat) : List NeighborEdge :=
  (dedupFirst [] (seedPairs train s)).map
    (fun p => { item := p.1, neighbor := p.2,
                cnt := ((seedPairs train s).filter (fun q => q = p)).length })

/-- Comparator of the neighbor sort: cnt descending only.  The source sorts
by `["item", "cnt"]` (ascending, descending) and takes
`group_by("item").head(n)`; for a fixed item the surviving rows are that
item's count rows stably sorted by cnt descending. -/
def cntLe (a b : NeighborEdge) : Bool := decide (b.cnt ≤ a.cnt)

/-- Embeds `build_item_neighbors` of `src/baselines/cooccurrence.py`: per
item (blocks in first-occurrence item order, a realization of the engine's
unspecified group order), the item's count rows sorted by cnt descending
(stable), first `n` of them. -/
def build_item_neighbors (train : List Interaction) (s n : Nat) : List NeighborEdge :=
  (dedupFirst [] ((coocCounts train s).map NeighborEdge.item)).flatMap
    (fun it => (sortIns cntLe ((coocCounts train s).filter (fun e => e.item = it))).take n)

/-- Scored candidates of one user in `build_cooccurrence_recs`: the user's
seed articles joined with the neighbor frame on item (left-row-major join
order realization), grouped by neighbor (first-occurrence key order) with
summed cnt. -/
def candidateScores (seeds : List String) (neighbors : List NeighborEdge) :
    List (String × Nat) :=
  let joined := seeds.flatMap (fun it =>
    (neighbors.filter (fun e => e.item = it)).map (fun e => (e.neighbor, e.cnt)))
  (dedupFirst [] (joined.map Prod.fst)).map
    (fun nb => (nb, ((joined.filter (fun p => p.1 = nb)).map Prod.snd).sum))

/-- Candidates of one user sorted by summed score descending (stable; the
source sorts by `["customer_id", "score"]` with no further key, so for a
fixed user this is its candidate rows by score descending). -/
def coCandidates (train : List Interaction) (neighbors : List NeighborEdge)
    (u : String) (s : Nat) : List (String × Nat) :=
  sortIns popLe (candidateScores ((seedsOf train u s).map Interaction.article_id) neighbors)

/-- Candidate articles of one user surviving the seen filter of
`build_cooccurrence_recs` (rows of `filtered` belonging to this user). -/
def coFiltered (train : List Interaction) (neighbors : List NeighborEdge)
    (u : String) (s : Nat) : List String :=
  ((coCandidates train neighbors u s).map Prod.fst).filter (fun a => a ∉ seenOf train u)

/-- Embeds `build_cooccurrence_recs` of `src/baselines/cooccurrence.py`: the
final `filtered.group_by(customer_id).agg(neighbor.head(k))` produces one row
per capped train user owning at least one surviving candidate row, carrying
the first `k` surviving candidates. -/
def build_cooccurrence_recs (train : List Interaction) (neighbors : List NeighborEdge)
    (k s : Nat) (maxUsers : Option Nat) : List RecRow :=
  ((capUsers train maxUsers).filter (fun u => coFiltered train neighbors u s ≠ [])).map
    (fun u => (u, (coFiltered train neighbors u s).take k))

/-! ### ScoreBuilder (`src/features/build_interactions.py`) -/

/-- Raw transaction event: (customer_id, article_id, t_dat). -/
abbrev RawEvent := String × String × Nat

/-- Output row of the score builder.  The source computes
`implicit_score = log1p(freq) * exp(-days_since_last / half_life_days)` in
floating point from exactly `freq` and `days_since_last`; the transcendental
float kernel is not reproduced here, so the row carries its two arguments
(`freq`, `days_since_last`) next to the grouped columns.  For a fixed `freq`
the score is a strictly monotone injection of `days_since_last`, so equality
and difference of score columns coincide with equality and difference of
these argument columns. -/
structure ScoredRow where
  customer_id : String
  article_id : String
  freq : Nat
  last_seen : Nat
  days_since_last : Int
deriving DecidableEq

/-- Embeds the aggregation part of `main` in
`src/features/build_interactions.py`: group the events by
(customer_id, article_id) (first-occurrence key order), with
`freq = len(group)`, `last_seen = max(t_dat)` and
`days_since_last = today - last_seen`, where `today` is the value the source
reads from the system clock via `date.today()` at run time — it is a
parameter here because a shallow embedding has no clock.  The final frame
sort by (customer_id, implicit_score) is a presentation step and is not
reproduced. -/
def build_interactions (events : List RawEvent) (today : Nat) : List ScoredRow :=
  (dedupFirst [] (events.map (fun e => (e.1, e.2.1)))).map (fun p =>
    let grp := events.filter (fun e => e.1 = p.1 ∧ e.2.1 = p.2)
    let last := (grp.map (fun e => e.2.2)).foldl max 0
    { customer_id := p.1, article_id := p.2, freq := grp.length,
      last_seen := last, days_since_last := (today : Int) - (last : Int) })

/-- Projection of a scored row onto its clock-independent columns. -/
def ScoredRow.dataPart (r : ScoredRow) : String × String × Nat × Nat :=
  (r.customer_id, r.article_id, r.freq, r.last_seen)

/-! ### Definitions taken from the spec's words (for refinement claims).
These are deliberately written from the specification text, to be compared
against the source-derived definitions above. -/

/-- Lexicographic order on character lists by code point, the standard string
order used to read the spec's "item_id ascending". -/
def charListLt : List Char → List Char → Bool
  | _, [] => false
  | [], _ :: _ => true
  | a :: as, b :: bs =>
    if a.val < b.val then true
    else if b.val < a.val then false
    else charListLt as bs

/-- Strict lexicographic order on strings. -/
def strLt (a b : String) : Bool := charListLt a.data b.data

/-- Modelled from the spec: comparator of the mandated seed selection,
"implicit_score descending, tie-break item_id ascending". -/
def specSeedLe (a b : Interaction) : Bool :=
  decide (b.implicit_score < a.implicit_score) ||
    (decide (a.implicit_score = b.implicit_score) && !strLt b.article_id a.article_id)

/-- Modelled from the spec: seed items of one user under the mandated
ordering, "top `seed_items_per_user` items by implicit_score descending,
tie-break item_id ascending". -/
def specSeedsOf (train : List Interaction) (u : String) (s : Nat) : List Interaction :=
  (sortIns specSeedLe (train.filter (fun r => r.customer_id = u))).take s

/-- Modelled from the spec: recall@K as the spec formula
"|prediction(u)[:K] ∩ truth(u)| / |truth(u)|, defined as 0.0 when truth(u) is
empty", with the intersection read as a set intersection. -/
def recallSpec (recs : List String) (truth : Finset String) (k : Nat) : ℚ :=
  if truth = ∅ then 0
  else ((((recs.take k).toFinset ∩ truth).card : Nat) : ℚ) / ((truth.card : Nat) : ℚ)

/-- Modelled from the spec: the AP@K running sum written positionally, "each
position i where prediction(u)[i] ∈ truth(u) contributes (hit_count / i)",
the running hit count at position i being the number of hits among the first
i entries. -/
def apSumSpec (truth : Finset String) (pred : List String) : ℚ :=
  ∑ j ∈ Finset.range pred.length,
    (if pred.getD j "" ∈ truth
     then (((pred.take (j + 1)).countP (fun a => a ∈ truth) : Nat) : ℚ) / ((j : ℚ) + 1)
     else 0)

/-- Modelled from the spec: AP@K as "sum / min(|truth(u)|, K), or 0.0 if
truth(u) is empty". -/
def apSpec (recs : List String) (truth : Finset String) (k : Nat) : ℚ :=
  if truth = ∅ then 0
  else
    if 0 < min truth.card k then apSumSpec truth (recs.take k) / ((min truth.card k : Nat) : ℚ)
    else 0

/-!
## Theorems
-/

theorem mem_dedupFirst [DecidableEq α] (l : List α) (seen : List α) (a : α) :
    a ∈ dedupFirst seen l ↔ a ∈ l ∧ a ∉ seen := by
  induction l generalizing seen with
  | nil => simp [dedupFirst]
  | cons b l ih =>
    by_cases hb : b ∈ seen <;> by_cases hab : a = b <;>
      simp_all [dedupFirst, List.mem_cons]

theorem nodup_dedupFirst [DecidableEq α] (l : List α) (seen : List α) :
    (dedupFirst seen l).Nodup := by
  induction l generalizing seen with
  | nil => simp [dedupFirst]
  | cons b l ih =>
    by_cases hb : b ∈ seen
    · simpa [dedupFirst, if_pos hb] using ih seen
    · rw [dedupFirst, if_neg hb, List.nodup_cons]
      refine ⟨fun hmem => ?_, ih (b :: seen)⟩
      exact ((mem_dedupFirst l (b :: seen) b).mp hmem).2 (List.mem_cons_self b seen)

theorem mem_insertLe (le : α → α → Bool) (a b : α) (l : List α) :
    b ∈ insertLe le a l ↔ b = a ∨ b ∈ l := by
  induction l with
  | nil => simp [insertLe]
  | cons c l ih =>
    rw [insertLe]
    by_cases h : le a c = true
    · simp [h]
    · simp only [if_neg h, List.mem_cons, ih]
      tauto

theorem perm_insertLe (le : α → α → Bool) (a : α) (l : List α) :
    (insertLe le a l).Perm (a :: l) := by
  induction l with
  | nil => simp [insertLe]
  | cons c l ih =>
    rw [insertLe]
    by_cases h : le a c = true
    · rw [if_pos h]
    · rw [if_neg h]
      exact (List.Perm.cons c ih).trans (List.Perm.swap a c l)

theorem perm_sortIns (le : α → α → Bool) (l : List α) : (sortIns le l).Perm l := by
  induction l with
  | nil => simp [sortIns]
  | cons a l ih =>
    rw [sortIns]
    exact (perm_insertLe le a (sortIns le l)).trans (List.Perm.cons a ih)

theorem pairwise_insertLe (le : α → α → Bool)
    (htrans : ∀ a b c, le a b = true → le b c = true → le a c = true)
    (htot : ∀ a b, le a b = true ∨ le b a = true)
    (a : α) (l : List α) (hl : l.Pairwise (fun x y => le x y = true)) :
    (insertLe le a l).Pairwise (fun x y => le x y = true) := by
  induction l with
  | nil => simp [insertLe]
  | cons c l ih =>
    rw [insertLe]
    by_cases h : le a c = true
    · rw [if_pos h]
      refine List.Pairwise.cons (fun z hz => ?_) hl
      rcases List.mem_cons.mp hz with rfl | hz
      · exact h
      · exact htrans a c z h (List.rel_of_pairwise_cons hl hz)
    · rw [if_neg h]
      have hca : le c a = true := (htot a c).resolve_left h
      refine List.Pairwise.cons (fun z hz => ?_) (ih hl.tail)
      rcases (mem_insertLe le a z l).mp hz with rfl | hz
      · exact hca
      · exact List.rel_of_pairwise_cons hl hz

theorem pairwise_sortIns (le : α → α → Bool)
    (htrans : ∀ a b c, le a b = true → le b c = true → le a c = true)
    (htot : ∀ a b, le a b = true ∨ le b a = true)
    (l : List α) : (sortIns le l).Pairwise (fun x y => le x y = true) := by
  induction l with
  | nil => simp [sortIns]
  | cons a l ih =>
    rw [sortIns]
    exact pairwise_insertLe le htrans htot a (sortIns le l) ih

theorem countP_take_eq_inter_card (recs : List String) (truth : Finset String) (k : Nat)
    (h : recs.Nodup) :
    ((recs.take k).countP (fun a => a ∈ truth) : Nat) = ((recs.take k).toFinset ∩ truth).card := by
  have hnd : (recs.take k).Nodup := h.sublist (List.take_sublist k recs)
  rw [List.countP_eq_length_filter,
    ← List.toFinset_card_of_nodup (hnd.filter (fun a => decide (a ∈ truth))),
    List.toFinset_filter]
  congr 1
  simp [Finset.filter_mem_eq_inter]

/-- C5 counterexample: on a prediction list with a duplicated truth item the
source's `recall_at_k` counts the item once per occurrence, so it differs
from the spec's set-intersection formula (2.0 versus 1.0) and even exceeds
1. -/
theorem recall_at_k_set_formula_counterexample :
    recall_at_k ["a", "a"] {"a"} 2 = 2 ∧ recallSpec ["a", "a"] {"a"} 2 = 1 ∧
      recall_at_k ["a", "a"] {"a"} 2 ≠ recallSpec ["a", "a"] {"a"} 2 := by
  have h1 : (["a", "a"].take 2).countP (fun a => a ∈ ({"a"} : Finset String)) = 2 := by decide
  have h2 : ((["a", "a"].take 2).toFinset ∩ ({"a"} : Finset String)).card = 1 := by decide
  have h3 : ({"a"} : Finset String) ≠ ∅ := by decide
  have h4 : ({"a"} : Finset String).card = 1 := by decide
  refine ⟨?_, ?_, ?_⟩
  · rw [recall_at_k, if_neg h3, h1, h4]; norm_num
  · rw [recallSpec, if_neg h3, h2, h4]; norm_num
  · rw [recall_at_k, recallSpec, if_neg h3, if_neg h3, h1, h2, h4]; norm_num

/-- C5 (amended): for duplicate-free prediction lists `recall_at_k` equals
the spec formula |prediction[:K] ∩ truth| / |truth| (0.0 on empty truth), and
the spec's two concrete examples hold:
recall_at_k(["x","a","y"], {"a","b"}, 3) = 0.5 and
recall_at_k([], {"a"}, 5) = 0.0. -/
theorem recall_at_k_spec_nodup :
    (∀ (recs : List String) (truth : Finset String) (k : Nat), recs.Nodup →
        recall_at_k recs truth k = recallSpec recs truth k) ∧
      recall_at_k ["x", "a", "y"] {"a", "b"} 3 = 1 / 2 ∧
      recall_at_k [] {"a"} 5 = 0 := by
  refine ⟨fun recs truth k h => ?_, ?_, ?_⟩
  · rw [recall_at_k, recallSpec, countP_take_eq_inter_card recs truth k h]
  · have h1 : (["x", "a", "y"].take 3).countP (fun a => a ∈ ({"a", "b"} : Finset String)) = 1 := by
      decide
    have h3 : ({"a", "b"} : Finset String) ≠ ∅ := by decide
    have h4 : ({"a", "b"} : Finset String).card = 2 := by decide
    rw [recall_at_k, if_neg h3, h1, h4]; norm_num
  · have h3 : ({"a"} : Finset String) ≠ ∅ := by decide
    rw [recall_at_k, if_neg h3]
    norm_num

/-- Witness for the amended C5 theorem at a concrete duplicate-free input. -/
theorem recall_at_k_spec_nodup_witness :
    recall_at_k ["x", "a", "y"] {"a", "b"} 3 = recallSpec ["x", "a", "y"] {"a", "b"} 3 :=
  recall_at_k_spec_nodup.1 ["x", "a", "y"] {"a", "b"} 3 (by decide)

theorem apLoop_eq_sum (truth : Finset String) (l : List String) :
    ∀ (i h : Nat) (s : ℚ),
      apLoop truth l i h s = s + ∑ j ∈ Finset.range l.length,
        (if l.getD j "" ∈ truth
         then ((h : ℚ) + (((l.take (j + 1)).countP (fun a => a ∈ truth) : Nat) : ℚ)) /
            ((i : ℚ) + (j : ℚ))
         else 0) := by
  induction l with
  | nil => intro i h s; simp [apLoop]
  | cons a l ih =>
    intro i h s
    rw [List.length_cons, Finset.sum_range_succ']
    by_cases ha : a ∈ truth
    · rw [apLoop, if_pos ha, ih (i + 1) (h + 1) (s + ((h : ℚ) + 1) / (i : ℚ))]
      have hstep : ∑ j ∈ Finset.range l.length,
          (if (a :: l).getD (j + 1) "" ∈ truth
           then ((h : ℚ) + ((((a :: l).take (j + 1 + 1)).countP (fun x => x ∈ truth) : Nat) : ℚ)) /
              ((i : ℚ) + ((j + 1 : Nat) : ℚ))
           else 0) =
          ∑ j ∈ Finset.range l.length,
          (if l.getD j "" ∈ truth
           then (((h + 1 : Nat) : ℚ) + (((l.take (j + 1)).countP (fun x => x ∈ truth) : Nat) : ℚ)) /
              (((i + 1 : Nat) : ℚ) + (j : ℚ))
           else 0) := by
        refine Finset.sum_congr rfl (fun j _ => ?_)
        rw [List.getD_cons_succ]
        by_cases hj : l.getD j "" ∈ truth
        · rw [if_pos hj, if_pos hj, List.take_succ_cons, List.countP_cons]
          simp only [ha, decide_eq_true_eq, if_true, decide_True]
          push_cast
          ring
        · rw [if_neg hj, if_neg hj]
      have h0 : (if (a :: l).getD 0 "" ∈ truth
          then ((h : ℚ) + ((((a :: l).take (0 + 1)).countP (fun x => x ∈ truth) : Nat) : ℚ)) /
            ((i : ℚ) + ((0 : Nat) : ℚ))
          else 0) = ((h : ℚ) + 1) / (i : ℚ) := by
        simp [ha]
      rw [hstep, h0]
      ring
    · rw [apLoop, if_neg ha, ih (i + 1) h s]
      have hstep : ∑ j ∈ Finset.range l.length,
          (if (a :: l).getD (j + 1) "" ∈ truth
           then ((h : ℚ) + ((((a :: l).take (j + 1 + 1)).countP (fun x => x ∈ truth) : Nat) : ℚ)) /
              ((i : ℚ) + ((j + 1 : Nat) : ℚ))
           else 0) =
          ∑ j ∈ Finset.range l.length,
          (if l.getD j "" ∈ truth
           then ((h : ℚ) + (((l.take (j + 1)).countP (fun x => x ∈ truth) : Nat) : ℚ)) /
              (((i + 1 : Nat) : ℚ) + (j : ℚ))
           else 0) := by
        refine Finset.sum_congr rfl (fun j _ => ?_)
        rw [List.getD_cons_succ]
        by_cases hj : l.getD j "" ∈ truth
        · rw [if_pos hj, if_pos hj, List.take_succ_cons, List.countP_cons]
          simp only [ha, decide_eq_true_eq, if_false, decide_False]
          push_cast
          ring
        · rw [if_neg hj, if_neg hj]
      have h0 : (if (a :: l).getD 0 "" ∈ truth
          then ((h : ℚ) + ((((a :: l).take (0 + 1)).countP (fun x => x ∈ truth) : Nat) : ℚ)) /
            ((i : ℚ) + ((0 : Nat) : ℚ))
          else 0) = 0 := by
        simp [ha]
      rw [hstep, h0]
      ring

/-- C6: `ap_at_k` agrees everywhere with the spec's positional description
(each position i in 1..K holding a truth item contributes
hit_count(i) / i to a sum that is divided by min(|truth|, K), 0.0 on empty
truth), and the spec's two concrete examples hold:
ap_at_k(["a","b"], {"a"}, 5) = 1.0 and ap_at_k(["b","a"], {"a"}, 5) = 0.5. -/
theorem ap_at_k_matches_spec :
    (∀ (recs : List String) (truth : Finset String) (k : Nat),
        ap_at_k recs truth k = apSpec recs truth k) ∧
      ap_at_k ["a", "b"] {"a"} 5 = 1 ∧
      ap_at_k ["b", "a"] {"a"} 5 = 1 / 2 := by
  refine ⟨fun recs truth k => ?_, ?_, ?_⟩
  · rw [ap_at_k, apSpec, apSumSpec, apLoop_eq_sum truth (recs.take k) 1 0 0]
    by_cases h0 : truth = ∅
    · rw [if_pos h0, if_pos h0]
    · rw [if_neg h0, if_neg h0]
      by_cases hmin : 0 < min truth.card k
      · rw [if_pos hmin, if_pos hmin]
        congr 1
        rw [zero_add]
        refine Finset.sum_congr rfl (fun j _ => ?_)
        by_cases hj : (recs.take k).getD j "" ∈ truth
        · rw [if_pos hj, if_pos hj]
          push_cast
          ring
        · rw [if_neg hj, if_neg hj]
      · rw [if_neg hmin, if_neg hmin]
  · norm_num [ap_at_k, apLoop, String.reduceEq]
    decide
  · norm_num [ap_at_k, apLoop, String.reduceEq]
    decide

theorem apLoop_nonneg (truth : Finset String) (l : List String) :
    ∀ (i h : Nat) (s : ℚ), 0 ≤ s → 0 ≤ apLoop truth l i h s := by
  induction l with
  | nil => intro i h s hs; simpa [apLoop] using hs
  | cons a l ih =>
    intro i h s hs
    rw [apLoop]
    by_cases ha : a ∈ truth
    · rw [if_pos ha]
      refine ih (i + 1) (h + 1) _ ?_
      have : (0 : ℚ) ≤ ((h : ℚ) + 1) / (i : ℚ) := by positivity
      linarith
    · rw [if_neg ha]
      exact ih (i + 1) h s hs

theorem apLoop_le_countP (truth : Finset String) (l : List String) :
    ∀ (i h : Nat) (s : ℚ), h + 1 ≤ i →
      apLoop truth l i h s ≤ s + (l.countP (fun a => a ∈ truth) : ℚ) := by
  induction l with
  | nil => intro i h s _; simp [apLoop]
  | cons a l ih =>
    intro i h s hi
    rw [apLoop, List.countP_cons]
    by_cases ha : a ∈ truth
    · rw [if_pos ha]
      have hstep := ih (i + 1) (h + 1) (s + ((h : ℚ) + 1) / (i : ℚ)) (Nat.add_le_add_right hi 1)
      have hdiv : ((h : ℚ) + 1) / (i : ℚ) ≤ 1 := by
        have hipos : (0 : ℚ) < (i : ℚ) := by
          exact_mod_cast Nat.lt_of_lt_of_le (Nat.succ_pos h) hi
        rw [div_le_one hipos]
        exact_mod_cast hi
      have hcnt : ((l.countP (fun a => a ∈ truth) + (if (decide (a ∈ truth)) = true then 1 else 0) :
          Nat) : ℚ) = (l.countP (fun a => a ∈ truth) : ℚ) + 1 := by
        simp [ha]
      rw [hcnt]
      linarith
    · rw [if_neg ha]
      have hstep := ih (i + 1) h s (Nat.le_succ_of_le hi)
      have hcnt : ((l.countP (fun a => a ∈ truth) + (if (decide (a ∈ truth)) = true then 1 else 0) :
          Nat) : ℚ) = (l.countP (fun a => a ∈ truth) : ℚ) := by
        simp [ha]
      rw [hcnt]
      exact hstep

theorem countP_take_le_card (recs : List String) (truth : Finset String) (k : Nat)
    (h : recs.Nodup) :
    (recs.take k).countP (fun a => a ∈ truth) ≤ truth.card := by
  rw [countP_take_eq_inter_card recs truth k h]
  exact Finset.card_le_card Finset.inter_subset_right

/-- C10: on duplicate-free prediction lists both metrics land in [0, 1] for
every K ≥ 1, and without the no-duplicates hypothesis the bound fails: a
repeated truth item is counted once per occurrence, so
ap_at_k(["a","a"], {"a"}, 5) and recall_at_k(["a","a"], {"a"}, 2) both
exceed 1. -/
theorem metrics_bounded_on_nodup :
    (∀ (recs : List String) (truth : Finset String) (k : Nat), recs.Nodup → 1 ≤ k →
        0 ≤ recall_at_k recs truth k ∧ recall_at_k recs truth k ≤ 1 ∧
        0 ≤ ap_at_k recs truth k ∧ ap_at_k recs truth k ≤ 1) ∧
      1 < ap_at_k ["a", "a"] {"a"} 5 ∧ 1 < recall_at_k ["a", "a"] {"a"} 2 := by
  refine ⟨fun recs truth k hnd hk => ?_, ?_, ?_⟩
  · by_cases h0 : truth = ∅
    · rw [recall_at_k, ap_at_k, if_pos h0, if_pos h0]
      norm_num
    · have hcard : 0 < truth.card := Finset.card_pos.mpr (Finset.nonempty_iff_ne_empty.mpr h0)
      have hcardQ : (0 : ℚ) < (truth.card : ℚ) := by exact_mod_cast hcard
      refine ⟨?_, ?_, ?_, ?_⟩
      · rw [recall_at_k, if_neg h0]
        positivity
      · rw [recall_at_k, if_neg h0, div_le_one hcardQ]
        exact_mod_cast countP_take_le_card recs truth k hnd
      · rw [ap_at_k, if_neg h0]
        by_cases hmin : 0 < min truth.card k
        · rw [if_pos hmin]
          have hminQ : (0 : ℚ) < ((min truth.card k : Nat) : ℚ) := by exact_mod_cast hmin
          exact div_nonneg (apLoop_nonneg truth (recs.take k) 1 0 0 le_rfl) (le_of_lt hminQ)
        · rw [if_neg hmin]
      · rw [ap_at_k, if_neg h0]
        have hmin : 0 < min truth.card k := lt_min hcard (Nat.lt_of_lt_of_le Nat.zero_lt_one hk)
        rw [if_pos hmin]
        have hminQ : (0 : ℚ) < ((min truth.card k : Nat) : ℚ) := by exact_mod_cast hmin
        rw [div_le_one hminQ]
        have h1 := apLoop_le_countP truth (recs.take k) 1 0 0 le_rfl
        have h2 : (recs.take k).countP (fun a => a ∈ truth) ≤ min truth.card k := by
          refine le_min (countP_take_le_card recs truth k hnd) ?_
          calc (recs.take k).countP (fun a => a ∈ truth) ≤ (recs.take k).length :=
                List.countP_le_length _
            _ ≤ k := List.length_take_le k recs
        have h2Q : ((recs.take k).countP (fun a => a ∈ truth) : ℚ) ≤
            ((min truth.card k : Nat) : ℚ) := by exact_mod_cast h2
        linarith
  · norm_num [ap_at_k, apLoop, String.reduceEq]
  · have h1 : (["a", "a"].take 2).countP (fun a => a ∈ ({"a"} : Finset String)) = 2 := by decide
    have h3 : ({"a"} : Finset String) ≠ ∅ := by decide
    have h4 : ({"a"} : Finset String).card = 1 := by decide
    rw [recall_at_k, if_neg h3, h1, h4]
    norm_num

/-- Witness for the C10 theorem at a concrete duplicate-free input. -/
theorem metrics_bounded_on_nodup_witness :
    0 ≤ recall_at_k ["b", "a"] {"a"} 2 ∧ recall_at_k ["b", "a"] {"a"} 2 ≤ 1 ∧
      0 ≤ ap_at_k ["b", "a"] {"a"} 2 ∧ ap_at_k ["b", "a"] {"a"} 2 ≤ 1 :=
  metrics_bounded_on_nodup.1 ["b", "a"] {"a"} 2 (by decide) (by decide)

/-- C4: `make_time_split` puts exactly the rows with last_seen < cutoff into
train and exactly the rows with last_seen ≥ cutoff into test; the two parts
are disjoint and together are a permutation of the input rows (every row
exactly once). -/
theorem make_time_split_partition (rows : List Interaction) (cutoff : Nat) :
    (∀ r, r ∈ (make_time_split rows cutoff).train ↔ r ∈ rows ∧ r.last_seen < cutoff) ∧
      (∀ r, r ∈ (make_time_split rows cutoff).test ↔ r ∈ rows ∧ cutoff ≤ r.last_seen) ∧
      List.Disjoint (make_time_split rows cutoff).train (make_time_split rows cutoff).test ∧
      ((make_time_split rows cutoff).train ++ (make_time_split rows cutoff).test).Perm rows := by
  refine ⟨fun r => ?_, fun r => ?_, ?_, ?_⟩
  · simp [make_time_split, List.mem_filter]
  · simp [make_time_split, List.mem_filter]
  · intro r hr1 hr2
    simp only [make_time_split, List.mem_filter, decide_eq_true_eq] at hr1 hr2
    exact absurd hr2.2 (Nat.not_le.mpr hr1.2)
  · have hneg : rows.filter (fun r => cutoff ≤ r.last_seen) =
        rows.filter (fun r => !(decide (r.last_seen < cutoff))) := by
      refine List.filter_congr (fun x _ => ?_)
      rw [← decide_not]
      exact decide_eq_decide.mpr (by omega)
    show (rows.filter (fun r => r.last_seen < cutoff) ++
        rows.filter (fun r => cutoff ≤ r.last_seen)).Perm rows
    rw [hneg]
    exact List.filter_append_perm _ rows

/-- Witness for the C4 theorem at a concrete split. -/
theorem make_time_split_partition_witness :
    ((⟨"u", "a", 1, 3, 1⟩ : Interaction) ∈
        (make_time_split [(⟨"u", "a", 1, 3, 1⟩ : Interaction)] 5).train ↔
      (⟨"u", "a", 1, 3, 1⟩ : Interaction) ∈ [(⟨"u", "a", 1, 3, 1⟩ : Interaction)] ∧
        (⟨"u", "a", 1, 3, 1⟩ : Interaction).last_seen < 5) :=
  (make_time_split_partition [(⟨"u", "a", 1, 3, 1⟩ : Interaction)] 5).1 _

/-- C9 counterexample: the score builder's days_since_last column is computed
against `date.today()`, so two runs on the same single raw event, one day
apart, produce different rows (days_since_last 10 versus 11): the computation
is not a pure function of data and configuration alone. -/
theorem build_interactions_clock_counterexample :
    (build_interactions [("u", "a", 10)] 20).map ScoredRow.days_since_last = [10] ∧
      (build_interactions [("u", "a", 10)] 21).map ScoredRow.days_since_last = [11] ∧
      build_interactions [("u", "a", 10)] 20 ≠ build_interactions [("u", "a", 10)] 21 := by
  decide

/-- C9 (amended): for a fixed run date the score builder is deterministic,
and the run date only enters through days_since_last: the grouped columns
(customer_id, article_id, freq, last_seen) are identical across run dates,
while days_since_last always equals run date minus last_seen. -/
theorem build_interactions_pure_given_run_date :
    ∀ (events : List RawEvent) (t₁ t₂ : Nat),
      ((build_interactions events t₁).map ScoredRow.dataPart =
        (build_interactions events t₂).map ScoredRow.dataPart) ∧
      (∀ r ∈ build_interactions events t₁,
        r.days_since_last = (t₁ : Int) - (r.last_seen : Int)) := by
  intro events t₁ t₂
  constructor
  · simp [build_interactions, ScoredRow.dataPart]
  · intro r hr
    rw [build_interactions] at hr
    rcases List.mem_map.mp hr with ⟨p, _, rfl⟩
    rfl

/-- Witness for the amended C9 theorem at a concrete row. -/
theorem build_interactions_pure_given_run_date_witness :
    (⟨"u", "a", 1, 10, 10⟩ : ScoredRow).days_since_last =
      ((20 : Nat) : Int) - (((⟨"u", "a", 1, 10, 10⟩ : ScoredRow).last_seen : Nat) : Int) :=
  (build_interactions_pure_given_run_date [("u", "a", 10)] 20 21).2
    ⟨"u", "a", 1, 10, 10⟩ (by decide)

theorem truthFor_ne_empty_iff (test : List TestRow) (u : String) :
    truthFor test u ≠ ∅ ↔ ∃ t ∈ test, t.1 = u := by
  rw [truthFor, ne_eq, List.toFinset_eq_empty_iff]
  constructor
  · intro h
    rcases List.exists_mem_of_ne_nil _ h with ⟨a, ha⟩
    rcases List.mem_map.mp ha with ⟨t, ht, _⟩
    exact ⟨t, (List.mem_filter.mp ht).1, of_decide_eq_true (List.mem_filter.mp ht).2⟩
  · rintro ⟨t, ht, htu⟩ hnil
    have : t.2 ∈ (List.map Prod.snd (List.filter (fun t => decide (t.1 = u)) test)) :=
      List.mem_map.mpr ⟨t, List.mem_filter.mpr ⟨ht, decide_eq_true htu⟩, rfl⟩
    rw [hnil] at this
    exact List.not_mem_nil t.2 this

/-- C1 counterexample: a user present in the recommendation output but absent
from the test snapshot is not assigned truth = ∅ and is not counted: the
inner join in `evaluate_recs` drops the user entirely, so users_evaluated is
0, not 1, on a one-user recs file and an empty test snapshot. -/
theorem evaluate_recs_zero_truth_counterexample :
    "u1" ∈ evalUsers [("u1", ["a"])] (some 100000) ∧
      truthFor [] "u1" = ∅ ∧
      (evaluate_recs "m" [("u1", ["a"])] [] 12 (some 100000)).users = 0 := by
  decide

/-- C1 (amended): `evaluate_recs` evaluates exactly the recommendation rows
whose user survives the max_users cap and has at least one test row; a capped
rec-output user with no test rows is excluded from the evaluated rows
entirely (not scored as 0.0, not counted in users_evaluated or in the metric
denominators, which are the count of evaluated rows). -/
theorem evaluate_recs_inner_join_semantics :
    ∀ (model : String) (recs : List RecRow) (test : List TestRow) (k : Nat) (m : Option Nat),
      ((evaluate_recs model recs test k m).users =
        recs.countP (fun r => r.1 ∈ evalUsers recs m ∧ ∃ t ∈ test, t.1 = r.1)) ∧
      (∀ u, u ∈ evalUsers recs m → truthFor test u = ∅ →
        ∀ row ∈ evalRows recs test m, row.1 ≠ u) := by
  intro model recs test k m
  constructor
  · have husers : (evaluate_recs model recs test k m).users = (evalRows recs test m).length := by
      simp [evaluate_recs]
    rw [husers, evalRows, List.length_map, ← List.countP_eq_length_filter]
    refine List.countP_congr (fun r _ => ?_)
    rcases truthFor_ne_empty_iff test r.1 with hiff
    by_cases h1 : r.1 ∈ evalUsers recs m
    · by_cases h2 : truthFor test r.1 ≠ ∅
      · simp [h1, h2, hiff.mp h2]
      · have h3 : ¬ ∃ t ∈ test, t.1 = r.1 := fun hex => h2 (hiff.mpr hex)
        simp [h2, h3]
    · simp [h1]
  · intro u hu htruth row hrow heq
    rcases List.mem_map.mp hrow with ⟨r, hr, rfl⟩
    exact (of_decide_eq_true (List.mem_filter.mp hr).2).2 (by rw [heq]; exact htruth)

/-- Witness for the amended C1 theorem: on a two-user recs file where only
user u2 has test rows, the evaluated row belongs to u2, not to the
zero-truth user u1. -/
theorem evaluate_recs_inner_join_semantics_witness :
    (("u2", ["b"], ({"c"} : Finset String)) : String × List String × Finset String).1 ≠ "u1" :=
  (evaluate_recs_inner_join_semantics "m" [("u1", ["a"]), ("u2", ["b"])] [("u2", "c")] 12
    none).2 "u1" (by decide) (by decide) ("u2", ["b"], {"c"}) (by decide)

theorem candidateScores_eq_nil (seeds : List String) (nb : List NeighborEdge)
    (h : ∀ e ∈ nb, e.item ∉ seeds) : candidateScores seeds nb = [] := by
  have hjoined : seeds.flatMap (fun it =>
      (nb.filter (fun e => e.item = it)).map (fun e => (e.neighbor, e.cnt))) = [] := by
    rw [List.flatMap_eq_nil_iff]
    intro it hit
    rw [List.map_eq_nil_iff, List.filter_eq_nil_iff]
    intro e he hdec
    exact h e he (of_decide_eq_true hdec ▸ hit)
  rw [candidateScores]
  simp only [hjoined]
  rfl

/-- C3 counterexample: a train user whose only item has no neighbor edges is
silently dropped by `build_cooccurrence_recs` — the output frame is empty, so
there is no present entry with an empty list for that user. -/
theorem cooccurrence_cold_start_counterexample :
    "u" ∈ capUsers [(⟨"u", "a", 1, 0, 1⟩ : Interaction)] none ∧
      build_cooccurrence_recs [(⟨"u", "a", 1, 0, 1⟩ : Interaction)] [] 12 10 none = [] ∧
      ∀ l, ("u", l) ∉ build_cooccurrence_recs [(⟨"u", "a", 1, 0, 1⟩ : Interaction)] [] 12 10 none := by
  refine ⟨by decide, by decide, fun l h => ?_⟩
  rw [show build_cooccurrence_recs [(⟨"u", "a", 1, 0, 1⟩ : Interaction)] [] 12 10 none = []
    from by decide] at h
  exact List.not_mem_nil _ h

/-- C3 (amended): a user none of whose seed items has a neighbor edge (which
covers users with no train rows and hence no seeds) is absent from the
co-occurrence output: no row is produced for that user, and no error is
raised — the recommender is a total function. -/
theorem cooccurrence_no_candidates_user_absent :
    ∀ (train : List Interaction) (nb : List NeighborEdge) (k s : Nat) (m : Option Nat)
      (u : String),
      (∀ e ∈ nb, e.item ∉ (seedsOf train u s).map Interaction.article_id) →
      ∀ p ∈ build_cooccurrence_recs train nb k s m, p.1 ≠ u := by
  intro train nb k s m u h p hp heq
  rw [build_cooccurrence_recs] at hp
  rcases List.mem_map.mp hp with ⟨u', hu', rfl⟩
  have hu : u' = u := heq
  subst hu
  have hfil : coFiltered train nb u' s = [] := by
    rw [coFiltered, coCandidates, candidateScores_eq_nil _ nb h]
    rfl
  exact of_decide_eq_true (List.mem_filter.mp hu').2 hfil

/-- Witness for the amended C3 theorem: with one neighbor edge rooted outside
user u's seeds, the only produced row belongs to user v. -/
theorem cooccurrence_no_candidates_user_absent_witness :
    (("v", ["c"]) : RecRow).1 ≠ "u" :=
  cooccurrence_no_candidates_user_absent
    [(⟨"u", "a", 1, 0, 1⟩ : Interaction), (⟨"v", "b", 1, 0, 1⟩ : Interaction)]
    [(⟨"b", "c", 5⟩ : NeighborEdge)] 12 10 none "u" (by decide) ("v", ["c"]) (by decide)

theorem mem_recsLoop (seen : Finset String) (k : Nat) (top : List String) :
    ∀ (out : List String) (a : String), a ∈ recsLoop seen k top out →
      a ∈ out ∨ (a ∈ top ∧ a ∉ seen) := by
  induction top with
  | nil =>
    intro out a ha
    exact Or.inl (List.mem_reverse.mp (by simpa [recsLoop] using ha))
  | cons b rest ih =>
    intro out a ha
    rw [recsLoop] at ha
    by_cases hb : b ∈ seen
    · simp only [if_pos hb] at ha
      by_cases hlen : out.length = k
      · rw [if_pos hlen] at ha
        exact Or.inl (List.mem_reverse.mp ha)
      · rw [if_neg hlen] at ha
        rcases ih out a ha with h | ⟨h1, h2⟩
        · exact Or.inl h
        · exact Or.inr ⟨List.mem_cons_of_mem b h1, h2⟩
    · simp only [if_neg hb] at ha
      by_cases hlen : (b :: out).length = k
      · rw [if_pos hlen] at ha
        rcases List.mem_cons.mp (List.mem_reverse.mp ha) with rfl | h
        · exact Or.inr ⟨List.mem_cons_self a rest, hb⟩
        · exact Or.inl h
      · rw [if_neg hlen] at ha
        rcases ih (b :: out) a ha with h | ⟨h1, h2⟩
        · rcases List.mem_cons.mp h with rfl | h
          · exact Or.inr ⟨List.mem_cons_self a rest, hb⟩
          · exact Or.inl h
        · exact Or.inr ⟨List.mem_cons_of_mem b h1, h2⟩

theorem length_recsLoop (seen : Finset String) (k : Nat) (top : List String) :
    ∀ (out : List String), out.length < k → (recsLoop seen k top out).length ≤ k := by
  induction top with
  | nil =>
    intro out hlt
    rw [recsLoop, List.length_reverse]
    exact Nat.le_of_lt hlt
  | cons b rest ih =>
    intro out hlt
    rw [recsLoop]
    by_cases hb : b ∈ seen
    · simp only [if_pos hb]
      by_cases hlen : out.length = k
      · rw [if_pos hlen, List.length_reverse, hlen]
      · rw [if_neg hlen]
        exact ih out hlt
    · simp only [if_neg hb]
      by_cases hlen : (b :: out).length = k
      · rw [if_pos hlen, List.length_reverse, hlen]
      · rw [if_neg hlen]
        refine ih (b :: out) ?_
        rw [List.length_cons] at hlen ⊢
        omega

theorem mem_seenOf (train : List Interaction) (u a : String) :
    a ∈ seenOf train u ↔ ∃ r ∈ train, r.customer_id = u ∧ r.article_id = a := by
  rw [seenOf, List.mem_toFinset]
  constructor
  · intro h
    rcases List.mem_map.mp h with ⟨r, hr, rfl⟩
    exact ⟨r, (List.mem_filter.mp hr).1, of_decide_eq_true (List.mem_filter.mp hr).2, rfl⟩
  · rintro ⟨r, hr, hcu, rfl⟩
    exact List.mem_map.mpr ⟨r, List.mem_filter.mpr ⟨hr, decide_eq_true hcu⟩, rfl⟩

/-- C7 counterexample: with K = 0 the popularity loop's break check
`len(out) == k` can never fire once an item has been appended, so the
returned list has length 1 > 0 = K for a user whose most popular unseen item
comes first in the pool. -/
theorem popularity_k_zero_counterexample :
    ("u", ["b"]) ∈ build_popularity_recs
        [(⟨"u", "a", 1, 0, 1⟩ : Interaction), (⟨"v", "b", 1, 0, 1⟩ : Interaction),
          (⟨"w", "b", 1, 0, 1⟩ : Interaction)] 0 none ∧
      ¬ ((["b"] : List String).length ≤ 0) := by
  decide

/-- C7 (amended): for every train snapshot and user, the popularity
recommendation list contains no item from that user's train rows, and has
length at most K whenever K ≥ 1 (at K = 0 the source loop can overshoot);
the co-occurrence recommendation list contains no item from that user's
train rows and has length at most K for every K. -/
theorem recommenders_respect_k_and_seen :
    ∀ (train : List Interaction) (nb : List NeighborEdge) (k s : Nat) (m : Option Nat),
      (∀ p ∈ build_popularity_recs train k m,
        (∀ a ∈ p.2, ∀ r ∈ train, r.customer_id = p.1 → r.article_id ≠ a) ∧
        (1 ≤ k → p.2.length ≤ k)) ∧
      (∀ p ∈ build_cooccurrence_recs train nb k s m,
        (∀ a ∈ p.2, ∀ r ∈ train, r.customer_id = p.1 → r.article_id ≠ a) ∧
        p.2.length ≤ k) := by
  intro train nb k s m
  constructor
  · intro p hp
    rw [build_popularity_recs] at hp
    rcases List.mem_map.mp hp with ⟨u, _, rfl⟩
    constructor
    · intro a ha r hr hcu hart
      rcases mem_recsLoop (seenOf train u) k (topItems train) [] a ha with h | ⟨_, h2⟩
      · exact List.not_mem_nil a h
      · exact h2 ((mem_seenOf train u a).mpr ⟨r, hr, hcu, hart⟩)
    · intro hk
      exact length_recsLoop (seenOf train u) k (topItems train) [] (by simpa using hk)
  · intro p hp
    rw [build_cooccurrence_recs] at hp
    rcases List.mem_map.mp hp with ⟨u, _, rfl⟩
    constructor
    · intro a ha r hr hcu hart
      have hmem : a ∈ coFiltered train nb u s :=
        List.mem_of_mem_take ha
      have hnot : a ∉ seenOf train u :=
        of_decide_eq_true (List.mem_filter.mp hmem).2
      exact hnot ((mem_seenOf train u a).mpr ⟨r, hr, hcu, hart⟩)
    · exact List.length_take_le k _

/-- Witness for the amended C7 theorem: on a concrete train snapshot with
K = 1, the popularity row of user u is ("u", ["b"]) and its item "b" differs
from u's train article "a". -/
theorem recommenders_respect_k_and_seen_witness :
    (⟨"u", "a", 1, 0, 1⟩ : Interaction).article_id ≠ "b" :=
  (((recommenders_respect_k_and_seen
      [(⟨"u", "a", 1, 0, 1⟩ : Interaction), (⟨"v", "b", 1, 0, 1⟩ : Interaction),
        (⟨"w", "b", 1, 0, 1⟩ : Interaction)] [] 1 10 none).1
    ("u", ["b"]) (by decide)).1 "b" (by decide) ⟨"u", "a", 1, 0, 1⟩ (by decide)) (by decide)

theorem filter_flatMap (l : List β) (f : β → List α) (p : α → Bool) :
    (l.flatMap f).filter p = l.flatMap (fun b => (f b).filter p) := by
  induction l with
  | nil => rfl
  | cons b l ih => simp [List.flatMap_cons, List.filter_append, ih]

theorem flatMap_filter_single [DecidableEq β] (g : β → List α) (it : β) :
    ∀ (items : List β), items.Nodup → (∀ j ∈ items, j ≠ it → g j = []) →
      items.flatMap g = if it ∈ items then g it else [] := by
  intro items
  induction items with
  | nil => intro _ _; simp
  | cons j items ih =>
    intro hnd hg
    rw [List.flatMap_cons]
    by_cases hj : j = it
    · subst hj
      have hrest : items.flatMap g = [] := by
        rw [List.flatMap_eq_nil_iff]
        intro j' hj'
        refine hg j' (List.mem_cons_of_mem j hj') (fun heq => ?_)
        exact (List.nodup_cons.mp hnd).1 (heq ▸ hj')
      simp [hrest]
    · have hgj : g j = [] := hg j (List.mem_cons_self j items) hj
      have hrest := ih (List.nodup_cons.mp hnd).2
        (fun j' hj' hne => hg j' (List.mem_cons_of_mem j hj') hne)
      rw [hgj, List.nil_append, hrest]
      simp [List.mem_cons, Ne.symm hj]

theorem mem_neighbor_chunk (counts : List NeighborEdge) (n : Nat) (j : String) :
    ∀ e ∈ (sortIns cntLe (counts.filter (fun e => e.item = j))).take n, e.item = j := by
  intro e he
  have h1 : e ∈ sortIns cntLe (counts.filter (fun e => e.item = j)) :=
    List.mem_of_mem_take he
  have h2 : e ∈ counts.filter (fun e => e.item = j) :=
    (perm_sortIns cntLe _).mem_iff.mp h1
  exact of_decide_eq_true (List.mem_filter.mp h2).2

theorem filter_build_item_neighbors (train : List Interaction) (s n : Nat) (it : String) :
    (build_item_neighbors train s n).filter (fun e => e.item = it) =
      if it ∈ dedupFirst [] ((coocCounts train s).map NeighborEdge.item)
      then (sortIns cntLe ((coocCounts train s).filter (fun e => e.item = it))).take n
      else [] := by
  rw [build_item_neighbors, filter_flatMap,
    flatMap_filter_single _ it _ (nodup_dedupFirst _ _) ?hg]
  case hg =>
    intro j _ hne
    rw [List.filter_eq_nil_iff]
    intro e he hdec
    exact hne ((mem_neighbor_chunk (coocCounts train s) n j e he) ▸ of_decide_eq_true hdec)
  by_cases hmem : it ∈ dedupFirst [] ((coocCounts train s).map NeighborEdge.item)
  · rw [if_pos hmem, if_pos hmem, List.filter_eq_self]
    intro e he
    exact decide_eq_true (mem_neighbor_chunk (coocCounts train s) n it e he)
  · rw [if_neg hmem, if_neg hmem]

theorem seedPairs_ne (train : List Interaction) (s : Nat) :
    ∀ p ∈ seedPairs train s, p.2 ≠ p.1 := by
  intro p hp
  rw [seedPairs] at hp
  rcases List.mem_flatMap.mp hp with ⟨u, _, hpu⟩
  rcases List.mem_flatMap.mp hpu with ⟨a, _, hpa⟩
  rcases List.mem_map.mp hpa with ⟨b, hb, rfl⟩
  exact of_decide_eq_true (List.mem_filter.mp hb).2

theorem mem_coocCounts_ne (train : List Interaction) (s : Nat) :
    ∀ e ∈ coocCounts train s, e.item ≠ e.neighbor := by
  intro e he
  rw [coocCounts] at he
  rcases List.mem_map.mp he with ⟨p, hp, rfl⟩
  have hpair : p ∈ seedPairs train s :=
    ((mem_dedupFirst (seedPairs train s) [] p).mp hp).1
  exact Ne.symm (seedPairs_ne train s p hpair)

theorem cntLe_trans : ∀ a b c : NeighborEdge,
    cntLe a b = true → cntLe b c = true → cntLe a c = true := fun _ _ _ hab hbc =>
  decide_eq_true (Nat.le_trans (of_decide_eq_true hbc) (of_decide_eq_true hab))

theorem cntLe_total : ∀ a b : NeighborEdge, cntLe a b = true ∨ cntLe b a = true := by
  intro a b
  rcases Nat.le_total b.cnt a.cnt with h | h
  · exact Or.inl (decide_eq_true h)
  · exact Or.inr (decide_eq_true h)

/-- C8 counterexample: on a train snapshot where item A ties with count 1 on
neighbors B and C, `build_item_neighbors` emits C before B (the engine's tie
order, realized here as first occurrence), although "B" < "C": the claimed
neighbor_id-ascending tie-break does not hold in the source, which sorts by
`["item", "cnt"]` only. -/
theorem build_item_neighbors_tiebreak_counterexample :
    ((build_item_neighbors
        [(⟨"u1", "A", 1, 0, 1⟩ : Interaction), (⟨"u1", "C", 1, 0, 1⟩ : Interaction),
          (⟨"u2", "A", 1, 0, 1⟩ : Interaction), (⟨"u2", "B", 1, 0, 1⟩ : Interaction)]
        10 50).filter (fun e => e.item = "A")).map (fun e => (e.neighbor, e.cnt)) =
      [("C", 1), ("B", 1)] ∧ strLt "B" "C" = true := by
  decide

/-- C8 (amended): in the NeighborEdge set produced by `build_item_neighbors`,
no edge is a self-loop, every item has at most `neighbors_per_item` edges,
and each item's edges are ordered by cooccurrence count descending; the order
among edges with equal counts is not specified by the source (no secondary
sort key), so no neighbor_id tie-break holds. -/
theorem build_item_neighbors_invariants :
    ∀ (train : List Interaction) (s n : Nat),
      (∀ e ∈ build_item_neighbors train s n, e.item ≠ e.neighbor) ∧
      (∀ it, ((build_item_neighbors train s n).filter (fun e => e.item = it)).length ≤ n) ∧
      (∀ it, ((build_item_neighbors train s n).filter (fun e => e.item = it)).Pairwise
        (fun a b => b.cnt ≤ a.cnt)) := by
  intro train s n
  refine ⟨?_, ?_, ?_⟩
  · intro e he
    rw [build_item_neighbors] at he
    rcases List.mem_flatMap.mp he with ⟨it, _, hchunk⟩
    have h2 : e ∈ coocCounts train s :=
      List.mem_of_mem_filter ((perm_sortIns cntLe _).mem_iff.mp (List.mem_of_mem_take hchunk))
    exact mem_coocCounts_ne train s e h2
  · intro it
    rw [filter_build_item_neighbors]
    by_cases hmem : it ∈ dedupFirst [] ((coocCounts train s).map NeighborEdge.item)
    · rw [if_pos hmem]
      exact List.length_take_le n _
    · rw [if_neg hmem]
      exact Nat.zero_le n
  · intro it
    rw [filter_build_item_neighbors]
    by_cases hmem : it ∈ dedupFirst [] ((coocCounts train s).map NeighborEdge.item)
    · rw [if_pos hmem]
      refine List.Pairwise.imp (fun h => of_decide_eq_true h) ?_
      exact ((pairwise_sortIns cntLe cntLe_trans cntLe_total _).sublist (List.take_sublist n _))
    · rw [if_neg hmem]
      exact List.Pairwise.nil

/-- Witness for the amended C8 theorem: the concrete edge (A, B, 1) produced
from a two-item user has distinct item and neighbor. -/
theorem build_item_neighbors_invariants_witness :
    (⟨"A", "B", 1⟩ : NeighborEdge).item ≠ (⟨"A", "B", 1⟩ : NeighborEdge).neighbor :=
  (build_item_neighbors_invariants
    [(⟨"u", "A", 1, 0, 1⟩ : Interaction), (⟨"u", "B", 1, 0, 1⟩ : Interaction)] 10 50).1
    ⟨"A", "B", 1⟩ (by decide)

theorem scoreLe_trans : ∀ a b c : Interaction,
    scoreLe a b = true → scoreLe b c = true → scoreLe a c = true := fun _ _ _ hab hbc =>
  decide_eq_true (le_trans (of_decide_eq_true hbc) (of_decide_eq_true hab))

theorem scoreLe_total : ∀ a b : Interaction, scoreLe a b = true ∨ scoreLe b a = true := by
  intro a b
  rcases le_total b.implicit_score a.implicit_score with h | h
  · exact Or.inl (decide_eq_true h)
  · exact Or.inr (decide_eq_true h)

theorem popLe_trans : ∀ a b c : String × Nat,
    popLe a b = true → popLe b c = true → popLe a c = true := fun _ _ _ hab hbc =>
  decide_eq_true (Nat.le_trans (of_decide_eq_true hbc) (of_decide_eq_true hab))

theorem popLe_total : ∀ a b : String × Nat, popLe a b = true ∨ popLe b a = true := by
  intro a b
  rcases Nat.le_total b.2 a.2 with h | h
  · exact Or.inl (decide_eq_true h)
  · exact Or.inr (decide_eq_true h)

/-- C2 counterexample: two rows of one user with equal implicit_score.  The
source's seed selection (stable sort by score only) picks the row that comes
first in the data, here item "b", while the spec's mandated ordering (score
descending, item_id ascending on ties) picks item "a": with
`seed_items_per_user = 1` even the selected seed set differs, so the code's
top-N selections are not uniquely determined by score with an item-ascending
tie-break. -/
theorem seed_tiebreak_counterexample :
    (seedsOf [(⟨"u", "b", 1, 0, 1⟩ : Interaction), (⟨"u", "a", 1, 0, 1⟩ : Interaction)]
        "u" 1).map Interaction.article_id = ["b"] ∧
      (specSeedsOf [(⟨"u", "b", 1, 0, 1⟩ : Interaction), (⟨"u", "a", 1, 0, 1⟩ : Interaction)]
        "u" 1).map Interaction.article_id = ["a"] ∧
      seedsOf [(⟨"u", "b", 1, 0, 1⟩ : Interaction), (⟨"u", "a", 1, 0, 1⟩ : Interaction)]
          "u" 1 ≠
        specSeedsOf [(⟨"u", "b", 1, 0, 1⟩ : Interaction), (⟨"u", "a", 1, 0, 1⟩ : Interaction)]
          "u" 1 := by
  decide

/-- C2 (amended): every top-N selection of the source — seed items per user,
the per-item neighbor lists, and the popularity pool — is ordered by its
score/count descending, but with no secondary sort key: the order (and, when
the cap cuts inside a tie group, the selected set) among equal scores is not
specified by the source, so the selections are uniquely determined by the
input data only in the absence of ties. -/
theorem topn_sorted_by_score_desc :
    ∀ (train : List Interaction) (nb : List NeighborEdge) (u : String) (s n : Nat),
      (seedsOf train u s).Pairwise
        (fun a b => b.implicit_score ≤ a.implicit_score) ∧
      (popSorted train).Pairwise (fun a b => b.2 ≤ a.2) ∧
      (coCandidates train nb u s).Pairwise (fun a b => b.2 ≤ a.2) ∧
      (∀ it, ((build_item_neighbors train s n).filter (fun e => e.item = it)).Pairwise
        (fun a b => b.cnt ≤ a.cnt)) := by
  intro train nb u s n
  refine ⟨?_, ?_, ?_, ?_⟩
  · refine List.Pairwise.imp (fun h => of_decide_eq_true h) ?_
    exact (pairwise_sortIns scoreLe scoreLe_trans scoreLe_total _).sublist
      (List.take_sublist s _)
  · exact List.Pairwise.imp (fun h => of_decide_eq_true h)
      (pairwise_sortIns popLe popLe_trans popLe_total _)
  · exact List.Pairwise.imp (fun h => of_decide_eq_true h)
      (pairwise_sortIns popLe popLe_trans popLe_total _)
  · intro it
    rw [filter_build_item_neighbors]
    by_cases hmem : it ∈ dedupFirst [] ((coocCounts train s).map NeighborEdge.item)
    · rw [if_pos hmem]
      refine List.Pairwise.imp (fun h => of_decide_eq_true h) ?_
      exact ((pairwise_sortIns cntLe cntLe_trans cntLe_total _).sublist (List.take_sublist n _))
    · rw [if_neg hmem]
      exact List.Pairwise.nil

end HM
